import Mathlib

/-!
Shallow embedding of the Shift Overlap Finder core (src/app.py): the
line-level shift extractor (`parse_pdf` with helpers
`parse_date_from_line` and `clean_name`), the per-day window
aggregation (the `by_date` grouping), and the overlap engine
(`overlap_days`).

Modelling conventions:
* Strings are processed as `List Char`; the schedule text is ASCII.
* Clock times are minutes after midnight (`Nat`).  A record's
  `start_dt` and `end_dt` are minute offsets from the midnight of the
  record's `date` (Python's `datetime.combine(current_date, t)`); the
  overnight adjustment `+ timedelta(days=1)` is `+ 1440` minutes.  In
  the source every datetime comparison and subtraction happens between
  datetimes that share the same base date, so the offsets carry
  exactly the same order and difference information.
* Calendar dates are encoded as `y * 10000 + m * 100 + d : Nat`, an
  encoding whose `Nat` order agrees with chronological order on valid
  dates.
* A raised Python exception (`ValueError` from `datetime.strptime`,
  which `parse_pdf` does not catch) is modelled as `Except.error ()`.
* The presentation-only `strftime` labels of the result rows are
  elided; rows carry the underlying date, window bounds, duration and
  participant list from which the source formats its strings.
-/

namespace ShiftOverlap

/-- Python regex class `[0-9]` (`\d` on ASCII input). -/
def isDigitC (c : Char) : Bool := decide ('0' ≤ c ∧ c ≤ '9')

/-- Python regex class `[A-Za-z]`. -/
def isAlphaC (c : Char) : Bool :=
  decide (('A' ≤ c ∧ c ≤ 'Z') ∨ ('a' ≤ c ∧ c ≤ 'z'))

/-- Python regex class `[A-Z0-9]` (the name cleaner runs on uppercased
text, so this is the class kept by the leading-junk removal). -/
def isKeepC (c : Char) : Bool :=
  decide (('A' ≤ c ∧ c ≤ 'Z') ∨ ('0' ≤ c ∧ c ≤ '9'))

/-- Python `\s` and `str.strip` / `str.split` whitespace, for the
ASCII schedule text. -/
def isWSC (c : Char) : Bool :=
  decide (c = ' ' ∨ c = '\t' ∨ c = '\n' ∨ c = '\r' ∨ c = '\x0b' ∨ c = '\x0c')

/-- Numeric value of a decimal digit character. -/
def dval (c : Char) : Nat := c.toNat - 48

/-- Python `str.upper()` on one ASCII character, written as an explicit
letter table so that its range is manifest. -/
def upChar (c : Char) : Char :=
  match c with
  | 'a' => 'A' | 'b' => 'B' | 'c' => 'C' | 'd' => 'D' | 'e' => 'E'
  | 'f' => 'F' | 'g' => 'G' | 'h' => 'H' | 'i' => 'I' | 'j' => 'J'
  | 'k' => 'K' | 'l' => 'L' | 'm' => 'M' | 'n' => 'N' | 'o' => 'O'
  | 'p' => 'P' | 'q' => 'Q' | 'r' => 'R' | 's' => 'S' | 't' => 'T'
  | 'u' => 'U' | 'v' => 'V' | 'w' => 'W' | 'x' => 'X' | 'y' => 'Y'
  | 'z' => 'Z'
  | other => other

/-- Python `str.strip()`: drop whitespace from both ends. -/
def trimWS (cs : List Char) : List Char :=
  ((cs.dropWhile isWSC).reverse.dropWhile isWSC).reverse

/-- `re.sub(r"^[^A-Z0-9]+", "", s)`: drop the leading run of characters
outside `A`-`Z`/`0`-`9`. -/
def dropJunk (cs : List Char) : List Char :=
  cs.dropWhile (fun c => !isKeepC c)

/-- `re.sub(r"^\d+\s*-\s*", "", s)`: drop a leading numeric code with a
dash separator, when present.  The regex is deterministic: `\d+` and
each `\s*` are maximal runs. -/
def dropCode (cs : List Char) : List Char :=
  if (cs.takeWhile isDigitC).isEmpty then cs
  else
    match (cs.dropWhile isDigitC).dropWhile isWSC with
    | '-' :: r => r.dropWhile isWSC
    | _ => cs

/-- Helper for `wordsL`: split into maximal whitespace-free chunks,
possibly producing empty chunks at whitespace positions. -/
def wordsRaw (cs : List Char) : List (List Char) :=
  cs.foldr
    (fun c acc =>
      if isWSC c then [] :: acc
      else
        match acc with
        | [] => [[c]]
        | w :: ws => (c :: w) :: ws)
    []

/-- Python `str.split()` with no argument: the whitespace-separated
words, with no empty words. -/
def wordsL (cs : List Char) : List (List Char) :=
  (wordsRaw cs).filter (· ≠ [])

/-- `re.fullmatch(r"[A-Z]", token)`: the token is one single capital
letter (an initial). -/
def isInitialTok (w : List Char) : Bool :=
  match w with
  | [c] => decide ('A' ≤ c ∧ c ≤ 'Z')
  | _ => false

/-- The keep-last-tokens step of `clean_name`, mirroring the source's
branch order on the split word list: first the trailing-single-initial
branch (keep the last 2 tokens), then the two-trailing-initials branch
(keep the last 3 tokens; unreachable in the source because the first
branch already fires whenever the last token is an initial, and kept
unreachable here), then the last-token fallback, and the collapsed
string itself (empty) when there are no words at all. -/
def cleanCore (parts : List (List Char)) : List Char :=
  match parts.reverse with
  | [] => []
  | [t] => t
  | q :: p :: rest =>
      if isInitialTok q then p ++ ' ' :: q
      else if rest ≠ [] && isInitialTok q && isInitialTok p then
        rest.headD [] ++ ' ' :: (p ++ ' ' :: q)
      else q

/-- `clean_name` from src/app.py, on character lists: uppercase and
strip, remove leading junk, remove a leading numeric code, split into
words (the source's whitespace collapse followed by `split()` yields
exactly the words of the uncollapsed string), and keep only the
trailing name tokens. -/
def cleanNameL (raw : List Char) : List Char :=
  cleanCore (wordsL (dropCode (dropJunk (trimWS (raw.map upChar)))))

/-- `clean_name` on Lean strings. -/
def clean_name (raw : String) : String := ⟨cleanNameL raw.toList⟩

/-! ## The shift-token regex and time parsing -/

/-- The clock fields of one `H:MM[AP]M-H:MM[AP]M` token, as matched by
`SHIFT_TOKEN_RE`.  The regex constrains only the shape (1-2 digits,
colon, 2 digits, meridiem); the field values are range-checked later by
`strptime`.  The optional `+` wrappers are stripped by the source
(`shift.replace("+", "")`) and therefore carry no data here. -/
structure ShiftTok where
  h1 : Nat
  m1 : Nat
  pm1 : Bool
  h2 : Nat
  m2 : Nat
  pm2 : Bool
deriving Repr, DecidableEq

/-- Match `\d{1,2}:` at the head: one or two digits followed by a
colon, returning the hour value and what follows the colon.  The
regex's greedy `\d{1,2}` is deterministic: two digits are taken
exactly when the second character is a digit, and then a colon must
follow (a third digit makes the match fail). -/
def readHour : List Char → Option (Nat × List Char)
  | c1 :: ':' :: r =>
      if isDigitC c1 then some (dval c1, r) else none
  | c1 :: c2 :: ':' :: r =>
      if isDigitC c1 && isDigitC c2 then some (dval c1 * 10 + dval c2, r) else none
  | _ => none

/-- Match `\d{1,2}:\d{2}[AP]M` at the head, returning hour value,
minute value, the meridiem (true for PM) and the rest. -/
def readTime (cs : List Char) : Option (Nat × Nat × Bool × List Char) :=
  match readHour cs with
  | none => none
  | some (h, r) =>
      match r with
      | d1 :: d2 :: ap :: 'M' :: rest =>
          if isDigitC d1 && isDigitC d2 && (ap = 'A' || ap = 'P') then
            some (h, dval d1 * 10 + dval d2, ap = 'P', rest)
          else none
      | _ => none

/-- Match `SHIFT_TOKEN_RE` (`\+?\d{1,2}:\d{2}[AP]M-\d{1,2}:\d{2}[AP]M\+?`)
anchored at the head of the list.  The trailing `\+?` never affects
whether a match exists, where it starts, or the captured fields, so it
is not modelled. -/
def matchShiftAt (cs : List Char) : Option ShiftTok :=
  let body := fun (cs' : List Char) =>
    match readTime cs' with
    | none => none
    | some (h1, m1, p1, r) =>
        match r with
        | '-' :: r2 =>
            match readTime r2 with
            | none => none
            | some (h2, m2, p2, _) => some ⟨h1, m1, p1, h2, m2, p2⟩
        | _ => none
  match cs with
  | '+' :: rest => body rest
  | _ => body cs

/-- `SHIFT_TOKEN_RE.search(line)`: the leftmost match, returned
together with the characters before it (`line[:mshift.start()]`, the
raw name field). -/
def searchShift : List Char → Option (List Char × ShiftTok)
  | [] => none
  | c :: cs =>
      match matchShiftAt (c :: cs) with
      | some t => some ([], t)
      | none =>
          match searchShift cs with
          | none => none
          | some (pre, t) => some (c :: pre, t)

/-- `datetime.strptime(s, "%I:%M%p")` on a token produced by the shift
regex, returning minutes after midnight.  For a 1-2 digit hour field
the `%I` pattern accepts exactly the values 1-12 (so hour `0` or `13`
raises), and the 2-digit minute field is accepted exactly when it is
at most 59; `%I` maps 12 AM to 0 and 12 PM to 12. -/
def strptimeClock (h m : Nat) (pm : Bool) : Option Nat :=
  if 1 ≤ h ∧ h ≤ 12 ∧ m ≤ 59 then
    some ((h % 12 + if pm then 12 else 0) * 60 + m)
  else none

/-! ## The date-header regex and date parsing -/

/-- The capitalized weekday names of `DATE_ANYWHERE_RE` (the outer
regex is case sensitive). -/
def weekdayNames : List (List Char) :=
  ["Monday".toList, "Tuesday".toList, "Wednesday".toList, "Thursday".toList,
   "Friday".toList, "Saturday".toList, "Sunday".toList]

/-- Uppercased full month names with their numbers, for `strptime`'s
case-insensitive `%B`. -/
def monthTable : List (List Char × Nat) :=
  [("JANUARY".toList, 1), ("FEBRUARY".toList, 2), ("MARCH".toList, 3),
   ("APRIL".toList, 4), ("MAY".toList, 5), ("JUNE".toList, 6),
   ("JULY".toList, 7), ("AUGUST".toList, 8), ("SEPTEMBER".toList, 9),
   ("OCTOBER".toList, 10), ("NOVEMBER".toList, 11), ("DECEMBER".toList, 12)]

/-- Drop a literal from the head of a list, when present. -/
def dropLit : List Char → List Char → Option (List Char)
  | [], cs => some cs
  | _ :: _, [] => none
  | l :: ls, c :: cs => if c = l then dropLit ls cs else none

/-- `\s+`: at least one whitespace character, maximal run. -/
def dropWS1 (cs : List Char) : Option (List Char) :=
  match cs with
  | c :: rest => if isWSC c then some (rest.dropWhile isWSC) else none
  | [] => none

/-- Match the tail of `DATE_ANYWHERE_RE` after the weekday name:
`,\s+([A-Za-z]+)\s+(\d{1,2}),\s+(\d{4})`, returning the month letters,
the day value and the year value.  Greedy `[A-Za-z]+`, `\s+` and
`\d{1,2}` are deterministic maximal runs here (`\d{1,2}` must be
followed by a comma; a run of three or more digits fails). -/
def dateTail (cs : List Char) : Option (List Char × Nat × Nat) :=
  match dropLit [','] cs with
  | none => none
  | some r0 =>
      match dropWS1 r0 with
      | none => none
      | some r1 =>
          let ml := r1.takeWhile isAlphaC
          if ml.isEmpty then none
          else
            match dropWS1 (r1.dropWhile isAlphaC) with
            | none => none
            | some r2 =>
                let ds := r2.takeWhile isDigitC
                if ds.length = 0 || 3 ≤ ds.length then none
                else
                  match r2.dropWhile isDigitC with
                  | ',' :: r3 =>
                      match dropWS1 r3 with
                      | none => none
                      | some r4 =>
                          match r4 with
                          | y1 :: y2 :: y3 :: y4 :: _ =>
                              if isDigitC y1 && isDigitC y2 && isDigitC y3 && isDigitC y4 then
                                some (ml,
                                  ds.foldl (fun a c => a * 10 + dval c) 0,
                                  ((dval y1 * 10 + dval y2) * 10 + dval y3) * 10 + dval y4)
                              else none
                          | _ => none
                  | _ => none

/-- Match `DATE_ANYWHERE_RE` anchored at the head: one of the weekday
names (they are prefix-free, so at most one alternative applies),
followed by the comma-month-day-year tail. -/
def matchDateAt (cs : List Char) : Option (List Char × Nat × Nat) :=
  weekdayNames.foldr
    (fun w acc =>
      match dropLit w cs with
      | some rest =>
          match dateTail rest with
          | some r => some r
          | none => acc
      | none => acc)
    none

/-- `DATE_ANYWHERE_RE.search(line)`: leftmost match anywhere in the
line. -/
def searchDate : List Char → Option (List Char × Nat × Nat)
  | [] => none
  | c :: cs =>
      match matchDateAt (c :: cs) with
      | some r => some r
      | none => searchDate cs

/-- Gregorian month lengths, as validated by `datetime`. -/
def daysInMonth (y m : Nat) : Nat :=
  if m = 2 then
    if y % 4 = 0 ∧ (y % 100 ≠ 0 ∨ y % 400 = 0) then 29 else 28
  else if m = 4 ∨ m = 6 ∨ m = 9 ∨ m = 11 then 30
  else 31

/-- Date encoding used throughout: `y * 10000 + m * 100 + d`. -/
def dateCode (y m d : Nat) : Nat := y * 10000 + m * 100 + d

/-- `parse_date_from_line`: `None` (`Except.ok none`) when the regex
does not match; otherwise `strptime("%A, %B %d, %Y")` runs on the
matched groups and raises `ValueError` (`Except.error ()`) when the
month name is not a real month, the day field is not accepted by `%d`
(value 1-31), the day is out of range for the month, or the year is 0
(below `datetime.MINYEAR`). -/
def parse_date_from_line (line : String) : Except Unit (Option Nat) :=
  match searchDate line.toList with
  | none => .ok none
  | some (ml, d, y) =>
      match (monthTable.filter (fun p => p.1 = ml.map upChar)).head? with
      | none => .error ()
      | some (_, m) =>
          if 1 ≤ d ∧ d ≤ 31 then
            if 1 ≤ y ∧ d ≤ daysInMonth y m then .ok (some (dateCode y m d))
            else .error ()
          else .error ()

/-! ## The extractor `parse_pdf` -/

/-- One extracted shift record: the row `{"date": current_date,
"name": name, "start_dt": start_dt, "end_dt": end_dt}` appended by
`parse_pdf`, with datetimes as minute offsets from the date's
midnight. -/
structure ShiftRecord where
  date : Nat
  name : String
  start_dt : Nat
  end_dt : Nat
deriving Repr, DecidableEq

/-- The non-person heading tuple `bad_prefix` from the source. -/
def badPrefixes : List String :=
  ["NAME", "SHIFT", "TOTAL", "TIME PERIOD", "QUERY", "PAGE",
   "FCST", "SCH", "O/U", "SVF"]

/-- Python `s.startswith(p)`: the first list starts with the second. -/
def startsL : List Char → List Char → Bool
  | _, [] => true
  | [], _ :: _ => false
  | c :: cs, p :: ps => c = p && startsL cs ps

/-- Combine the parsed clock times with the current date: the stored
start is the naive combination, and the stored end gets one day
(1440 minutes) added when the naive end is not strictly after the
start (the overnight rule `if end_dt <= start_dt`). -/
def mkShift (d : Nat) (nm : String) (st et : Nat) : ShiftRecord :=
  ⟨d, nm, st, if et ≤ st then et + 1440 else et⟩

/-- The line loop of `parse_pdf`, threading the `current_date`
cursor.  Any `ValueError` raised by `strptime` inside the loop aborts
the whole parse (`Except.error ()`), exactly as in the source, which
has no exception handler. -/
def parsePdfGo : Option Nat → List String → Except Unit (List ShiftRecord)
  | _, [] => .ok []
  | cur, l :: ls =>
      let line := String.mk (trimWS l.toList)
      if line = "" then parsePdfGo cur ls
      else
        match parse_date_from_line line with
        | .error e => .error e
        | .ok (some d) => parsePdfGo (some d) ls
        | .ok none =>
            match cur with
            | none => parsePdfGo cur ls
            | some cd =>
                match searchShift line.toList with
                | none => parsePdfGo cur ls
                | some (pre, tok) =>
                    let name := String.mk (cleanNameL (trimWS pre))
                    if name = "" then parsePdfGo cur ls
                    else if badPrefixes.any (fun p => startsL name.toList p.toList) then
                      parsePdfGo cur ls
                    else
                      match strptimeClock tok.h1 tok.m1 tok.pm1,
                            strptimeClock tok.h2 tok.m2 tok.pm2 with
                      | some st, some et =>
                          match parsePdfGo cur ls with
                          | .error e => .error e
                          | .ok rest => .ok (mkShift cd name st et :: rest)
                      | _, _ => .error ()

/-- `parse_pdf` on the extracted text lines (the pdfplumber collaborator
is the excluded text-extraction boundary; pages contribute their lines
in order, so the input is the ordered line sequence). -/
def parse_pdf (lines : List String) : Except Unit (List ShiftRecord) :=
  parsePdfGo none lines

/-! ## Daily windows and the overlap engine -/

/-- One `DailyEmployeeWindow`: the merged earliest-start/latest-end
interval of one employee on one date (a row of the per-date frame
built by `g.groupby("name").agg(start_dt=min, end_dt=max)`). -/
structure Window where
  start_dt : Nat
  end_dt : Nat
deriving Repr, DecidableEq

/-- A per-date frame: employee name to window, as an association
list. -/
abbrev Per := List (String × Window)

/-- Association-list lookup modelling Python dict / pandas index
access (`per.index` membership and `per.loc`). -/
def alookup {κ α : Type} [DecidableEq κ] (k : κ) : List (κ × α) → Option α
  | [] => none
  | (k2, v) :: rest => if k = k2 then some v else alookup k rest

/-- First-seen-order deduplication, Python `dict.fromkeys`. -/
def dedupFirst {α : Type} [DecidableEq α] (l : List α) : List α :=
  l.foldl (fun acc x => if x ∈ acc then acc else acc ++ [x]) []

/-- `itertools.combinations`: all sorted-by-position subsequences of
the given size, in the enumeration order itertools uses. -/
def combinations {α : Type} : Nat → List α → List (List α)
  | 0, _ => [[]]
  | _ + 1, [] => []
  | k + 1, x :: xs => (combinations k xs).map (x :: ·) ++ combinations (k + 1) xs

/-- One output row of `overlap_days`.  The source stores formatted
labels; this carries the underlying values those labels are formatted
from (`window_start`/`window_end` as minute offsets on `date`). -/
structure OverlapRow where
  date : Nat
  winStart : Nat
  winEnd : Nat
  durationHrs : ℚ
  participants : List String
deriving Repr, DecidableEq

/-- `round(x, 2)`: round to two decimal places.  On every value this
engine produces the scaled argument `x * 100` has denominator 3 or 1
and is never a half-integer, so the tie-breaking rule of `round` is
immaterial here. -/
def round2 (q : ℚ) : ℚ := (round (q * 100) : ℤ) / 100

/-- The windows of a candidate group, `per.loc[list(group)]`; inside
`overlap_days` every group member is present in the index, so the
lookups all succeed. -/
def winsOf (per : Per) (g : List String) : List Window :=
  g.filterMap (fun n => alookup n per)

/-- `latest_start = sub["start_dt"].max()` and
`earliest_end = sub["end_dt"].min()` for one candidate group; `none`
models the empty frame (pandas `NaN`, whose comparisons are false). -/
def groupEval (per : Per) (g : List String) : Option (Nat × Nat) :=
  match winsOf per g with
  | [] => none
  | w :: ws =>
      some (ws.foldl (fun a x => max a x.start_dt) w.start_dt,
            ws.foldl (fun a x => min a x.end_dt) w.end_dt)

/-- Keep the candidate with the strictly longer overlap (`dur >
best`); on a tie the earlier candidate is kept, the source's
first-found rule. -/
def better (best : Option (Nat × Nat × List String)) (ls ee : Nat) (g : List String) :
    Option (Nat × Nat × List String) :=
  match best with
  | none => some (ls, ee, g)
  | some (bls, bee, bg) =>
      if bee - bls < ee - ls then some (ls, ee, g) else some (bls, bee, bg)

/-- One iteration of the best-candidate loop of `overlap_days`:
consider the group only when `latest_start < earliest_end`. -/
def pbStep (per : Per) (best : Option (Nat × Nat × List String)) (g : List String) :
    Option (Nat × Nat × List String) :=
  match groupEval per g with
  | none => best
  | some (ls, ee) => if ls < ee then better best ls ee g else best

/-- The best-candidate loop of `overlap_days`: scan the groups in
order, consider only those with `latest_start < earliest_end`, keep
the longest overlap. -/
def pickBest (per : Per) (groups : List (List String)) : Option (Nat × Nat × List String) :=
  groups.foldl (pbStep per) none

/-- `[clean_name(n) for n in names if n]` deduplicated in first-seen
order (`list(dict.fromkeys(names))`). -/
def uniqNames (names : List String) : List String :=
  dedupFirst ((names.filter (fun n => n ≠ "")).map clean_name)

/-- The per-date body of the `overlap_days` loop: filter the selected
names to those present on the date, skip the date when fewer than
`require_k` are present, enumerate the candidate groups (the whole
`present` list in strict mode, else the size-`require_k`
combinations), and emit the best overlapping candidate, if any.
Duration is the window's total seconds over 3600, rounded to two
decimals by the source's `round(..., 2)`. -/
def dateRow (d : Nat) (per : Per) (uniq : List String) (require_k : Nat) : Option OverlapRow :=
  let present := uniq.filter (fun n => (alookup n per).isSome)
  if present.length < require_k then none
  else
    let groups := if require_k = uniq.length then [present] else combinations require_k present
    match pickBest per groups with
    | none => none
    | some (ls, ee, g) =>
        some ⟨d, ls, ee, round2 ((((ee : ℚ) - ls) * 60) / 3600), g⟩

/-- `overlap_days(by_date, names, require_k)`: normalize and
deduplicate the requested names, return the empty frame when fewer
than 3 distinct names remain, and otherwise scan the dates in
ascending order emitting only the positive days. -/
def overlap_days (bd : List (Nat × Per)) (names : List String) (require_k : Nat) :
    List OverlapRow :=
  let uniq := uniqNames names
  if uniq.length < 3 then []
  else
    (List.insertionSort (· ≤ ·) (bd.map Prod.fst)).filterMap (fun d =>
      match alookup d bd with
      | none => none
      | some per => dateRow d per uniq require_k)

/-! ## The per-day aggregation `by_date` -/

/-- Collapse a nonempty group of records for one `(date, name)` into
its window: minimum start, maximum end (`agg(start_dt=min,
end_dt=max)`). -/
def winAgg (rs : List ShiftRecord) : Window :=
  match rs with
  | [] => ⟨0, 0⟩
  | r :: rest =>
      ⟨rest.foldl (fun a x => min a x.start_dt) r.start_dt,
       rest.foldl (fun a x => max a x.end_dt) r.end_dt⟩

/-- The distinct values of a column in the ascending key order pandas
`groupby` iterates in. -/
def sortDedupN (l : List Nat) : List Nat :=
  List.insertionSort (· ≤ ·) (dedupFirst l)

/-- The `by_date` construction from the source's glue code: group the
records by date, and within a date group by name, aggregating each
name's records into its daily window.  pandas iterates the date keys
in ascending order (modelled by `sortDedupN`); the order of the name
rows inside one date's frame is immaterial, since every downstream
access goes through keyed lookup, so the names keep first-seen
order here. -/
def by_date (df : List ShiftRecord) : List (Nat × Per) :=
  (sortDedupN (df.map (·.date))).map (fun d =>
    let g := df.filter (fun r => r.date = d)
    (d, (dedupFirst (g.map (·.name))).map (fun n =>
      (n, winAgg (g.filter (fun r => r.name = n))))))

/-- The scenario frame used by several witnesses: three employees with
a common 12:00-15:00 window on one date. -/
def bdScenario : List (Nat × Per) :=
  [(20260303, [("A", ⟨540, 1020⟩), ("B", ⟨720, 1200⟩), ("C", ⟨660, 900⟩)])]

/-- The row `overlap_days` emits on `bdScenario` for quorum 3. -/
def rowScenario : OverlapRow :=
  ⟨20260303, 720, 900, round2 ((((900 : Nat) : ℚ) - ((720 : Nat) : ℚ)) * 60 / 3600),
    ["A", "B", "C"]⟩

/-- A retained name token: nonempty, uppercase-fixed, whitespace
free. -/
def GoodWord (w : List Char) : Prop :=
  w ≠ [] ∧ ∀ c ∈ w, upChar c = c ∧ isWSC c = false

/-! ## Extractor invariants -/

/-- A successfully parsed clock time is below 24 hours. -/
lemma strptimeClock_lt {h m : Nat} {pm : Bool} {t : Nat}
    (he : strptimeClock h m pm = some t) : t < 1440 := by
  unfold strptimeClock at he
  split at he
  · rename_i hcond
    injection he with he2
    have hmod : h % 12 < 12 := Nat.mod_lt _ (by omega)
    have hif : (if pm then 12 else 0) ≤ 12 := by cases pm <;> simp
    obtain ⟨h1, h2, h3⟩ := hcond
    omega
  · exact absurd he (by simp)

/-- Every record emitted by the extractor loop carries a
`clean_name`-normalized nonempty name without a heading prefix, and a
start strictly before its end. -/
lemma parsePdfGo_records :
    ∀ (lines : List String) (cur : Option Nat) (recs : List ShiftRecord),
      parsePdfGo cur lines = .ok recs → ∀ r ∈ recs,
      (∃ raw, r.name = String.mk (cleanNameL raw)) ∧ r.name ≠ "" ∧
      (badPrefixes.any (fun p => startsL r.name.toList p.toList)) = false ∧
      r.start_dt < r.end_dt := by
  intro lines
  induction lines with
  | nil =>
      intro cur recs h r hr
      simp only [parsePdfGo] at h
      obtain rfl : ([] : List ShiftRecord) = recs := by injection h
      simp at hr
  | cons l ls ih =>
      intro cur recs h r hr
      simp only [parsePdfGo] at h
      split at h
      · exact ih _ _ h r hr
      · split at h
        · exact absurd h (by simp)
        · exact ih _ _ h r hr
        · split at h
          · exact ih _ _ h r hr
          · split at h
            · exact ih _ _ h r hr
            · split at h
              · exact ih _ _ h r hr
              · rename_i hname
                split at h
                · exact ih _ _ h r hr
                · rename_i hbad
                  split at h
                  · rename_i hst het
                    split at h
                    · exact absurd h (by simp)
                    · rename_i rest hrest
                      obtain rfl : _ = recs := by injection h
                      rcases List.mem_cons.mp hr with rfl | hr
                      · refine ⟨⟨_, rfl⟩, hname, Bool.eq_false_iff.mpr hbad, ?_⟩
                        have h1 := strptimeClock_lt hst
                        have h2 := strptimeClock_lt het
                        simp only [mkShift]
                        split <;> omega
                      · exact ih _ _ hrest r hr
                  · exact absurd h (by simp)

/-- C5: for a parsed shift line (clock times are below 24 hours), if
the naive end is at or before the start then the stored end is exactly
one day (1440 minutes) after the naive combination; and every record
the extractor emits has `end > start`. -/
theorem c5_overnight_end_after_start :
    (∀ (d : Nat) (nm : String) (st et : Nat), st < 1440 → et < 1440 →
      ((et ≤ st → (mkShift d nm st et).end_dt = et + 1440) ∧
        (mkShift d nm st et).start_dt < (mkShift d nm st et).end_dt)) ∧
    (∀ (lines : List String) (recs : List ShiftRecord),
      parse_pdf lines = .ok recs → ∀ r ∈ recs, r.start_dt < r.end_dt) := by
  constructor
  · intro d nm st et hst het
    constructor
    · intro hle
      simp only [mkShift, if_pos hle]
    · simp only [mkShift]
      split <;> omega
  · intro lines recs h r hr
    exact (parsePdfGo_records lines none recs h r hr).2.2.2

/-- C5 witness: a 9:00PM-6:00AM overnight record gets its end pushed
one day forward and ends after it starts, and the record extracted
from a concrete overnight document ends after it starts. -/
theorem c5_overnight_end_after_start_witness :
    (mkShift 20260303 ("ALEX L") 1260 360).end_dt = 360 + 1440 ∧
    (mkShift 20260303 ("ALEX L") 1260 360).start_dt < (mkShift 20260303 ("ALEX L") 1260 360).end_dt ∧
    (⟨20260303, "ALEX L", 1260, 1800⟩ : ShiftRecord).start_dt <
      (⟨20260303, "ALEX L", 1260, 1800⟩ : ShiftRecord).end_dt := by
  refine ⟨?_, ?_, ?_⟩
  · exact (c5_overnight_end_after_start.1 20260303 ("ALEX L") 1260 360
      (by decide) (by decide)).1 (by decide)
  · exact (c5_overnight_end_after_start.1 20260303 ("ALEX L") 1260 360
      (by decide) (by decide)).2
  · exact c5_overnight_end_after_start.2 ["Tuesday, March 3, 2026", "ALEX L 9:00PM-6:00AM"]
      [⟨20260303, "ALEX L", 1260, 1800⟩] rfl _ (List.mem_singleton.mpr rfl)

/-- C10: a line whose cleaned name starts with one of the fixed
heading prefixes is discarded, so no emitted record's name starts with
one of them; and a document whose only shift line is for a genuine
employee named `SCHMIDT T` (which starts with the `SCH` prefix) yields
no records at all. -/
theorem c10_heading_prefixes_never_emitted :
    (∀ (lines : List String) (recs : List ShiftRecord), parse_pdf lines = .ok recs →
      ∀ r ∈ recs, ∀ p ∈ badPrefixes, startsL r.name.toList p.toList = false) ∧
    parse_pdf ["Tuesday, March 3, 2026", "SCHMIDT T 9:00AM-5:00PM"] = .ok [] := by
  constructor
  · intro lines recs h r hr p hp
    have hany := (parsePdfGo_records lines none recs h r hr).2.2.1
    have := List.any_eq_false.mp hany p hp
    exact Bool.eq_false_iff.mpr this
  · rfl

/-- C10 witness: the name extracted from a concrete document does not
start with the `SCH` heading prefix. -/
theorem c10_heading_prefixes_never_emitted_witness :
    startsL ("ANN K" : String).toList ("SCH" : String).toList = false :=
  c10_heading_prefixes_never_emitted.1 ["Tuesday, March 3, 2026", "ANN K 9:00AM-5:00PM"]
    [⟨20260303, "ANN K", 540, 1020⟩] rfl _ (List.mem_singleton.mpr rfl) "SCH" (by decide)

/-! ## Properties of the best-candidate loop -/

/-- Unfolding equation for `better` on an empty accumulator. -/
lemma better_none_eq (ls ee : Nat) (g : List String) :
    better none ls ee g = some (ls, ee, g) := rfl

/-- Unfolding equation for `better` on a held accumulator. -/
lemma better_some_eq (bls bee : Nat) (bg : List String) (ls ee : Nat) (g : List String) :
    better (some (bls, bee, bg)) ls ee g =
      if bee - bls < ee - ls then some (ls, ee, g) else some (bls, bee, bg) := rfl

/-- Unfolding equation for `pbStep` on a group with no windows. -/
lemma pbStep_none_eval (per : Per) (b : Option (Nat × Nat × List String)) (g : List String)
    (h : groupEval per g = none) : pbStep per b g = b := by
  unfold pbStep
  rw [h]

/-- Unfolding equation for `pbStep` on an evaluated group. -/
lemma pbStep_some_eval (per : Per) (b : Option (Nat × Nat × List String)) (g : List String)
    (ls ee : Nat) (h : groupEval per g = some (ls, ee)) :
    pbStep per b g = if ls < ee then better b ls ee g else b := by
  unfold pbStep
  rw [h]

/-- `better` always yields a candidate. -/
lemma better_isSome (b : Option (Nat × Nat × List String)) (ls ee : Nat) (g : List String) :
    (better b ls ee g).isSome := by
  rcases b with _ | ⟨bls, bee, bg⟩
  · rfl
  · rw [better_some_eq]
    split <;> rfl

/-- One loop step keeps the accumulator present. -/
lemma pbStep_isSome (per : Per) (b : Option (Nat × Nat × List String)) (g : List String)
    (h : b.isSome) : (pbStep per b g).isSome := by
  rcases hge : groupEval per g with _ | ⟨ls, ee⟩
  · rw [pbStep_none_eval per b g hge]
    exact h
  · rw [pbStep_some_eval per b g ls ee hge]
    split
    · exact better_isSome b ls ee g
    · exact h

/-- The whole loop keeps the accumulator present. -/
lemma foldl_pb_isSome (per : Per) :
    ∀ (groups : List (List String)) (b : Option (Nat × Nat × List String)),
      b.isSome → (groups.foldl (pbStep per) b).isSome := by
  intro groups
  induction groups with
  | nil => intro b h; exact h
  | cons g gs ih => intro b h; exact ih _ (pbStep_isSome per b g h)

/-- One loop step never loses duration: whatever the accumulator held,
the new accumulator holds a candidate at least as long. -/
lemma pbStep_dur_mono (per : Per) (b : Option (Nat × Nat × List String)) (g : List String)
    (bls bee : Nat) (bg : List String) (hb : b = some (bls, bee, bg)) :
    ∃ q, pbStep per b g = some q ∧ bee - bls ≤ q.2.1 - q.1 := by
  subst hb
  rcases hge : groupEval per g with _ | ⟨ls, ee⟩
  · rw [pbStep_none_eval _ _ _ hge]
    exact ⟨(bls, bee, bg), rfl, Nat.le_refl _⟩
  · rw [pbStep_some_eval _ _ _ ls ee hge]
    by_cases hlt : ls < ee
    · rw [if_pos hlt, better_some_eq]
      by_cases hd : bee - bls < ee - ls
      · rw [if_pos hd]
        exact ⟨(ls, ee, g), rfl, Nat.le_of_lt hd⟩
      · rw [if_neg hd]
        exact ⟨(bls, bee, bg), rfl, Nat.le_refl _⟩
    · rw [if_neg hlt]
      exact ⟨(bls, bee, bg), rfl, Nat.le_refl _⟩

/-- After processing a strictly overlapping group, the accumulator
holds a candidate at least as long as that group's overlap. -/
lemma pbStep_dur_ge (per : Per) (b : Option (Nat × Nat × List String)) (g : List String)
    (ls ee : Nat) (hge : groupEval per g = some (ls, ee)) (hlt : ls < ee) :
    ∃ q, pbStep per b g = some q ∧ ee - ls ≤ q.2.1 - q.1 := by
  rw [pbStep_some_eval _ _ _ ls ee hge, if_pos hlt]
  rcases b with _ | ⟨bls, bee, bg⟩
  · rw [better_none_eq]
    exact ⟨(ls, ee, g), rfl, Nat.le_refl _⟩
  · rw [better_some_eq]
    by_cases hd : bee - bls < ee - ls
    · rw [if_pos hd]
      exact ⟨(ls, ee, g), rfl, Nat.le_refl _⟩
    · rw [if_neg hd]
      exact ⟨(bls, bee, bg), rfl, Nat.le_of_not_lt hd⟩

/-- Provenance of the loop result: it is the starting accumulator or a
strictly overlapping group from the list, with its computed bounds. -/
lemma foldl_pb_some_src (per : Per) :
    ∀ (groups : List (List String)) (b : Option (Nat × Nat × List String))
      (out : Nat × Nat × List String),
      groups.foldl (pbStep per) b = some out →
      b = some out ∨
        (out.2.2 ∈ groups ∧ groupEval per out.2.2 = some (out.1, out.2.1) ∧ out.1 < out.2.1) := by
  intro groups
  induction groups with
  | nil => intro b out h; exact Or.inl h
  | cons g gs ih =>
      intro b out h
      rcases ih (pbStep per b g) out h with hstep | hmem
      · rcases hge : groupEval per g with _ | ⟨ls, ee⟩
        · rw [pbStep_none_eval _ _ _ hge] at hstep
          exact Or.inl hstep
        · rw [pbStep_some_eval _ _ _ ls ee hge] at hstep
          by_cases hlt : ls < ee
          · rw [if_pos hlt] at hstep
            rcases b with _ | ⟨bls, bee, bg⟩
            · rw [better_none_eq] at hstep
              injection hstep with h2
              subst h2
              exact Or.inr ⟨List.mem_cons_self g gs, hge, hlt⟩
            · rw [better_some_eq] at hstep
              split at hstep
              · injection hstep with h2
                subst h2
                exact Or.inr ⟨List.mem_cons_self g gs, hge, hlt⟩
              · exact Or.inl hstep
          · rw [if_neg hlt] at hstep
            exact Or.inl hstep
      · exact Or.inr ⟨List.mem_cons_of_mem g hmem.1, hmem.2⟩

/-- Maximality of the loop result: its duration dominates the starting
accumulator's and every strictly overlapping group's. -/
lemma foldl_pb_max (per : Per) :
    ∀ (groups : List (List String)) (b : Option (Nat × Nat × List String))
      (out : Nat × Nat × List String),
      groups.foldl (pbStep per) b = some out →
      (∀ bls bee bg, b = some (bls, bee, bg) → bee - bls ≤ out.2.1 - out.1) ∧
      (∀ g ∈ groups, ∀ ls ee, groupEval per g = some (ls, ee) → ls < ee →
        ee - ls ≤ out.2.1 - out.1) := by
  intro groups
  induction groups with
  | nil =>
      intro b out h
      constructor
      · intro bls bee bg hb
        rw [hb] at h
        injection h with h2
        subst h2
        exact Nat.le_refl _
      · intro g hg
        exact absurd hg (by simp)
  | cons g gs ih =>
      intro b out h
      have ihspec := ih (pbStep per b g) out h
      constructor
      · intro bls bee bg hb
        obtain ⟨q, hq, hle⟩ := pbStep_dur_mono per b g bls bee bg hb
        exact Nat.le_trans hle (ihspec.1 q.1 q.2.1 q.2.2 (by rw [hq]))
      · intro g2 hg2 ls ee hge hlt
        rcases List.mem_cons.mp hg2 with rfl | hg2
        · obtain ⟨q, hq, hle⟩ := pbStep_dur_ge per b g2 ls ee hge hlt
          exact Nat.le_trans hle (ihspec.1 q.1 q.2.1 q.2.2 (by rw [hq]))
        · exact ihspec.2 g2 hg2 ls ee hge hlt

/-- Completeness of the loop: a strictly overlapping group in the list
guarantees a result. -/
lemma foldl_pb_some_of_exists (per : Per) :
    ∀ (groups : List (List String)) (b : Option (Nat × Nat × List String)),
      (∃ g ∈ groups, ∃ ls ee, groupEval per g = some (ls, ee) ∧ ls < ee) →
      (groups.foldl (pbStep per) b).isSome := by
  intro groups
  induction groups with
  | nil =>
      intro b h
      obtain ⟨g, hg, _⟩ := h
      exact absurd hg (by simp)
  | cons g gs ih =>
      intro b h
      obtain ⟨g2, hg2, ls, ee, hge, hlt⟩ := h
      rcases List.mem_cons.mp hg2 with rfl | hg2
      · obtain ⟨q, hq, _⟩ := pbStep_dur_ge per b g2 ls ee hge hlt
        have : (pbStep per b g2).isSome := by rw [hq]; rfl
        exact foldl_pb_isSome per gs _ this
      · exact ih (pbStep per b g) ⟨g2, hg2, ls, ee, hge, hlt⟩

/-- The winning candidate of `pickBest` is a strictly overlapping
group from the list with its computed bounds. -/
lemma pickBest_spec {per : Per} {groups : List (List String)} {out : Nat × Nat × List String}
    (h : pickBest per groups = some out) :
    out.2.2 ∈ groups ∧ groupEval per out.2.2 = some (out.1, out.2.1) ∧ out.1 < out.2.1 :=
  (foldl_pb_some_src per groups none out h).resolve_left (by simp)

/-- The winning candidate of `pickBest` has the longest duration among
all strictly overlapping groups. -/
lemma pickBest_max {per : Per} {groups : List (List String)} {out : Nat × Nat × List String}
    (h : pickBest per groups = some out) :
    ∀ g ∈ groups, ∀ ls ee, groupEval per g = some (ls, ee) → ls < ee →
      ee - ls ≤ out.2.1 - out.1 :=
  (foldl_pb_max per groups none out h).2

/-- `pickBest` finds a winner exactly when some group strictly
overlaps. -/
lemma pickBest_isSome_iff (per : Per) (groups : List (List String)) :
    (pickBest per groups).isSome ↔
      ∃ g ∈ groups, ∃ ls ee, groupEval per g = some (ls, ee) ∧ ls < ee := by
  constructor
  · intro h
    obtain ⟨out, hout⟩ := Option.isSome_iff_exists.mp h
    obtain ⟨hmem, hge, hlt⟩ := pickBest_spec hout
    exact ⟨out.2.2, hmem, out.1, out.2.1, hge, hlt⟩
  · exact foldl_pb_some_of_exists per groups none

/-- The computed bounds of a candidate group are the maximum of the
group's window starts and the minimum of the group's window ends. -/
lemma groupEval_minmax {per : Per} {g : List String} {ls ee : Nat}
    (h : groupEval per g = some (ls, ee)) :
    ((winsOf per g).map Window.start_dt).max? = some ls ∧
    ((winsOf per g).map Window.end_dt).min? = some ee := by
  unfold groupEval at h
  rcases hw : winsOf per g with _ | ⟨w, ws⟩ <;> rw [hw] at h
  · exact absurd h (by simp)
  · injection h with h2
    injection h2 with h3 h4
    subst h3
    subst h4
    constructor
    · show ((w :: ws).map Window.start_dt).max? = _
      rw [List.map_cons, List.max?_cons', List.foldl_map]
    · show ((w :: ws).map Window.end_dt).min? = _
      rw [List.map_cons, List.min?_cons', List.foldl_map]

/-- C6: a candidate group is evaluated to the maximum of its window
starts and the minimum of its window ends, counts as overlapping
exactly when that maximum start is strictly below that minimum end
(so a winner exists iff some candidate strictly overlaps), and any
emitted winner satisfies the strict inequality — a zero-length
touching group is never emitted. -/
theorem c6_strict_overlap_rule (per : Per) (groups : List (List String)) :
    (∀ ls ee g, pickBest per groups = some (ls, ee, g) →
      g ∈ groups ∧ groupEval per g = some (ls, ee) ∧ ls < ee) ∧
    ((pickBest per groups).isSome ↔
      ∃ g ∈ groups, ∃ ls ee, groupEval per g = some (ls, ee) ∧ ls < ee) ∧
    (∀ g ls ee, groupEval per g = some (ls, ee) →
      ((winsOf per g).map Window.start_dt).max? = some ls ∧
      ((winsOf per g).map Window.end_dt).min? = some ee) := by
  refine ⟨?_, pickBest_isSome_iff per groups, ?_⟩
  · intro ls ee g h
    exact pickBest_spec h
  · intro g ls ee h
    exact groupEval_minmax h

/-- C6 witness: on a concrete frame, the winner `pickBest` returns is
in the candidate list, carries the computed max-start/min-end bounds,
and strictly overlaps; and a back-to-back (touching) candidate yields
no winner. -/
theorem c6_strict_overlap_rule_witness :
    (["A", "B"] ∈ [["A", "B"]] ∧
      groupEval [("A", ⟨540, 1020⟩), ("B", ⟨720, 1200⟩)] ["A", "B"] = some (720, 1020) ∧
      720 < 1020) ∧
    pickBest [("A", ⟨540, 720⟩), ("B", ⟨720, 900⟩)] [["A", "B"]] = none :=
  ⟨(c6_strict_overlap_rule [("A", ⟨540, 1020⟩), ("B", ⟨720, 1200⟩)] [["A", "B"]]).1
      720 1020 ["A", "B"] rfl,
    rfl⟩

/-! ## Row provenance in `overlap_days` -/

/-- `dateRow` with its local bindings inlined. -/
lemma dateRow_eq (d : Nat) (per : Per) (uniq : List String) (k : Nat) :
    dateRow d per uniq k =
      if (uniq.filter (fun n => (alookup n per).isSome)).length < k then none
      else
        match pickBest per
            (if k = uniq.length
              then [uniq.filter (fun n => (alookup n per).isSome)]
              else combinations k (uniq.filter (fun n => (alookup n per).isSome))) with
        | none => none
        | some (ls, ee, g) =>
            some ⟨d, ls, ee, round2 ((((ee : ℚ) - ls) * 60) / 3600), g⟩ := rfl

/-- What a produced `dateRow` row is: the quorum was met, the row
carries the date, a candidate group of the enumerated list with its
computed bounds, a strictly positive window, the rounded duration, and
no other strictly overlapping candidate lasts longer. -/
lemma dateRow_some_spec {d : Nat} {per : Per} {uniq : List String} {k : Nat}
    {row : OverlapRow} (h : dateRow d per uniq k = some row) :
    k ≤ (uniq.filter (fun n => (alookup n per).isSome)).length ∧
    row.date = d ∧
    row.participants ∈
      (if k = uniq.length
        then [uniq.filter (fun n => (alookup n per).isSome)]
        else combinations k (uniq.filter (fun n => (alookup n per).isSome))) ∧
    groupEval per row.participants = some (row.winStart, row.winEnd) ∧
    row.winStart < row.winEnd ∧
    row.durationHrs = round2 ((((row.winEnd : ℚ) - row.winStart) * 60) / 3600) ∧
    (∀ g ∈ (if k = uniq.length
        then [uniq.filter (fun n => (alookup n per).isSome)]
        else combinations k (uniq.filter (fun n => (alookup n per).isSome))),
      ∀ ls ee, groupEval per g = some (ls, ee) → ls < ee →
        ee - ls ≤ row.winEnd - row.winStart) := by
  rw [dateRow_eq] at h
  split at h
  · exact absurd h (by simp)
  · rename_i hk
    by_cases hkq : k = uniq.length
    · rw [if_pos hkq] at h ⊢
      split at h
      · exact absurd h (by simp)
      · rename_i out hpb
        injection h with h2
        subst h2
        obtain ⟨hmem, hge, hlt⟩ := pickBest_spec hpb
        exact ⟨Nat.le_of_not_lt hk, rfl, hmem, hge, hlt, rfl, pickBest_max hpb⟩
    · rw [if_neg hkq] at h ⊢
      split at h
      · exact absurd h (by simp)
      · rename_i out hpb
        injection h with h2
        subst h2
        obtain ⟨hmem, hge, hlt⟩ := pickBest_spec hpb
        exact ⟨Nat.le_of_not_lt hk, rfl, hmem, hge, hlt, rfl, pickBest_max hpb⟩

/-- `overlap_days` with its local binding inlined. -/
lemma overlap_days_eq (bd : List (Nat × Per)) (names : List String) (k : Nat) :
    overlap_days bd names k =
      if (uniqNames names).length < 3 then []
      else
        (List.insertionSort (· ≤ ·) (bd.map Prod.fst)).filterMap (fun d =>
          match alookup d bd with
          | none => none
          | some per => dateRow d per (uniqNames names) k) := rfl

/-- Every row of `overlap_days` comes from `dateRow` on the frame the
mapping holds at the row's own date. -/
lemma overlap_days_mem {bd : List (Nat × Per)} {names : List String} {k : Nat}
    {row : OverlapRow} (h : row ∈ overlap_days bd names k) :
    ∃ per, alookup row.date bd = some per ∧
      dateRow row.date per (uniqNames names) k = some row := by
  rw [overlap_days_eq] at h
  split at h
  · exact absurd h (by simp)
  · obtain ⟨d, _, hfd⟩ := List.mem_filterMap.mp h
    rcases halk : alookup d bd with _ | per <;> rw [halk] at hfd
    · exact absurd hfd (by simp)
    · have hdate : row.date = d := (dateRow_some_spec hfd).2.1
      subst hdate
      exact ⟨per, halk, hfd⟩

/-- C9 (amended): each emitted duration is the window's total elapsed
seconds divided by 3600, rounded to two decimal places by the source's
`round(..., 2)`, rather than the exact value. -/
theorem c9_duration_is_rounded_hours {bd : List (Nat × Per)} {names : List String}
    {k : Nat} {row : OverlapRow} (h : row ∈ overlap_days bd names k) :
    row.durationHrs = round2 ((((row.winEnd : ℚ) - row.winStart) * 60) / 3600) := by
  obtain ⟨per, _, hdr⟩ := overlap_days_mem h
  exact (dateRow_some_spec hdr).2.2.2.2.2.1

/-- C9 amended-claim witness: the concrete emitted row's duration is
the rounded value. -/
theorem c9_duration_is_rounded_hours_witness :
    rowScenario.durationHrs =
      round2 ((((rowScenario.winEnd : ℚ) - rowScenario.winStart) * 60) / 3600) :=
  c9_duration_is_rounded_hours
    (show rowScenario ∈ overlap_days bdScenario ["A", "B", "C"] 3 from
      List.mem_singleton.mpr rfl)

/-! ## Ordering and size of the emitted rows -/

/-- Every member of `combinations k l` has length `k`. -/
lemma length_of_mem_combinations {α : Type} :
    ∀ (k : Nat) (l : List α) (g : List α), g ∈ combinations k l → g.length = k := by
  intro k l
  induction l generalizing k with
  | nil =>
      intro g hg
      cases k with
      | zero =>
          rw [show combinations 0 ([] : List α) = [[]] from rfl] at hg
          rw [List.mem_singleton.mp hg]
          rfl
      | succ k2 => exact absurd hg (by rw [show combinations (k2 + 1) ([] : List α) = [] from rfl]; simp)
  | cons x xs ih =>
      intro g hg
      cases k with
      | zero =>
          rw [show combinations 0 (x :: xs) = [[]] from rfl] at hg
          rw [List.mem_singleton.mp hg]
          rfl
      | succ k2 =>
          rw [show combinations (k2 + 1) (x :: xs) =
            (combinations k2 xs).map (x :: ·) ++ combinations (k2 + 1) xs from rfl] at hg
          rcases List.mem_append.mp hg with hg | hg
          · obtain ⟨g2, hg2, rfl⟩ := List.mem_map.mp hg
            simp [ih k2 g2 hg2]
          · exact ih (k2 + 1) g hg

/-- A `filterMap` that can only return its input element is a
sublist of the input. -/
lemma filterMap_keyLike_sublist {f : Nat → Option Nat}
    (hf : ∀ a b, f a = some b → b = a) :
    ∀ l : List Nat, (l.filterMap f).Sublist l := by
  intro l
  induction l with
  | nil => simp
  | cons x xs ih =>
      rw [List.filterMap_cons]
      cases hfx : f x with
      | none => exact ih.cons x
      | some b =>
          have hbx : b = x := hf x b hfx
          subst hbx
          exact ih.cons₂ b

/-- The dates of the emitted rows are strictly ascending whenever the
mapping's keys are distinct (they are: the source's `by_date` is a
dict). -/
lemma overlap_days_dates_sorted (bd : List (Nat × Per)) (names : List String) (k : Nat)
    (hnd : (bd.map Prod.fst).Nodup) :
    ((overlap_days bd names k).map OverlapRow.date).Sorted (· < ·) := by
  rw [overlap_days_eq]
  split
  · simp
  · rw [List.map_filterMap]
    have hpair : (List.insertionSort (· ≤ ·) (bd.map Prod.fst)).Sorted (· < ·) := by
      have hs := List.sorted_insertionSort (· ≤ ·) (bd.map Prod.fst)
      have hn : (List.insertionSort (· ≤ ·) (bd.map Prod.fst)).Nodup :=
        (List.perm_insertionSort (· ≤ ·) (bd.map Prod.fst)).nodup_iff.mpr hnd
      exact hs.lt_of_le hn
    refine List.Pairwise.sublist ?_ hpair
    apply filterMap_keyLike_sublist
    intro a b hab
    rcases halk : alookup a bd with _ | per <;> rw [halk] at hab
    · exact absurd hab (by simp)
    · have hab2 : (dateRow a per (uniqNames names) k).map OverlapRow.date = some b := hab
      rcases hdr : dateRow a per (uniqNames names) k with _ | row <;> rw [hdr] at hab2
      · exact absurd hab2 (by simp)
      · have hda : row.date = a := (dateRow_some_spec hdr).2.1
        have hab3 : some row.date = some b := hab2
        injection hab3 with hab4
        rw [← hab4, hda]

/-- C7: for a windows mapping with distinct keys, the output dates are
strictly ascending; and every emitted row sits at a date whose frame
the mapping holds, carries a quorum-sized candidate group from the
enumerated list together with its computed window, that window is
strictly positive, and no other strictly overlapping candidate group
on that date lasts longer. -/
theorem c7_ordered_rows_carry_longest_group (bd : List (Nat × Per)) (names : List String)
    (k : Nat) (hnd : (bd.map Prod.fst).Nodup) :
    ((overlap_days bd names k).map OverlapRow.date).Sorted (· < ·) ∧
    (∀ row ∈ overlap_days bd names k,
      ∃ per, alookup row.date bd = some per ∧
        row.participants ∈
          (if k = (uniqNames names).length
            then [(uniqNames names).filter (fun n => (alookup n per).isSome)]
            else combinations k
              ((uniqNames names).filter (fun n => (alookup n per).isSome))) ∧
        row.participants.length = k ∧
        groupEval per row.participants = some (row.winStart, row.winEnd) ∧
        row.winStart < row.winEnd ∧
        (∀ g ∈ (if k = (uniqNames names).length
            then [(uniqNames names).filter (fun n => (alookup n per).isSome)]
            else combinations k
              ((uniqNames names).filter (fun n => (alookup n per).isSome))),
          ∀ ls ee, groupEval per g = some (ls, ee) → ls < ee →
            ee - ls ≤ row.winEnd - row.winStart)) := by
  constructor
  · exact overlap_days_dates_sorted bd names k hnd
  · intro row hrow
    obtain ⟨per, halk, hdr⟩ := overlap_days_mem hrow
    obtain ⟨hk, _, hmem, hge, hlt, _, hmax⟩ := dateRow_some_spec hdr
    refine ⟨per, halk, hmem, ?_, hge, hlt, hmax⟩
    by_cases hkq : k = (uniqNames names).length
    · rw [if_pos hkq] at hmem
      have hpe : row.participants =
          (uniqNames names).filter (fun n => (alookup n per).isSome) :=
        List.mem_singleton.mp hmem
      rw [hpe]
      have hle : ((uniqNames names).filter (fun n => (alookup n per).isSome)).length ≤
          (uniqNames names).length := List.length_filter_le _ _
      omega
    · rw [if_neg hkq] at hmem
      exact length_of_mem_combinations k _ row.participants hmem

/-- C7 witness: on the concrete scenario frame the output dates are
sorted and the emitted row satisfies the per-row properties. -/
theorem c7_ordered_rows_carry_longest_group_witness :
    ((overlap_days bdScenario ["A", "B", "C"] 3).map OverlapRow.date).Sorted (· < ·) :=
  (c7_ordered_rows_carry_longest_group bdScenario ["A", "B", "C"] 3 (by decide)).1

/-! ## The `by_date` aggregation -/

/-- Membership through the first-seen deduplication fold. -/
lemma dedupFirst_aux_mem {α : Type} [DecidableEq α] :
    ∀ (l acc : List α) (x : α),
      (x ∈ l.foldl (fun acc y => if y ∈ acc then acc else acc ++ [y]) acc) ↔
        x ∈ acc ∨ x ∈ l := by
  intro l
  induction l with
  | nil => intro acc x; simp
  | cons y ys ih =>
      intro acc x
      rw [List.foldl_cons]
      by_cases hy : y ∈ acc
      · rw [if_pos hy, ih]
        constructor
        · rintro (h | h)
          · exact Or.inl h
          · exact Or.inr (List.mem_cons_of_mem _ h)
        · rintro (h | h)
          · exact Or.inl h
          · rcases List.mem_cons.mp h with rfl | h
            · exact Or.inl hy
            · exact Or.inr h
      · rw [if_neg hy, ih]
        simp only [List.mem_append, List.mem_cons, List.mem_singleton]
        tauto

/-- `dedupFirst` keeps exactly the original elements. -/
lemma dedupFirst_mem {α : Type} [DecidableEq α] (l : List α) (x : α) :
    x ∈ dedupFirst l ↔ x ∈ l := by
  unfold dedupFirst
  rw [dedupFirst_aux_mem]
  simp

/-- The deduplication fold preserves distinctness. -/
lemma dedupFirst_aux_nodup {α : Type} [DecidableEq α] :
    ∀ (l acc : List α), acc.Nodup →
      (l.foldl (fun acc y => if y ∈ acc then acc else acc ++ [y]) acc).Nodup := by
  intro l
  induction l with
  | nil => intro acc h; exact h
  | cons y ys ih =>
      intro acc h
      rw [List.foldl_cons]
      by_cases hy : y ∈ acc
      · rw [if_pos hy]
        exact ih acc h
      · rw [if_neg hy]
        refine ih _ ?_
        rw [List.nodup_append]
        exact ⟨h, List.nodup_singleton y,
          fun a ha hay => hy ((List.mem_singleton.mp hay) ▸ ha)⟩

/-- `dedupFirst` yields distinct elements. -/
lemma dedupFirst_nodup {α : Type} [DecidableEq α] (l : List α) : (dedupFirst l).Nodup :=
  dedupFirst_aux_nodup l [] List.nodup_nil

/-- `sortDedupN` keeps exactly the original elements. -/
lemma sortDedupN_mem (l : List Nat) (x : Nat) : x ∈ sortDedupN l ↔ x ∈ l := by
  unfold sortDedupN
  rw [(List.perm_insertionSort _ _).mem_iff, dedupFirst_mem]

/-- `sortDedupN` yields distinct elements. -/
lemma sortDedupN_nodup (l : List Nat) : (sortDedupN l).Nodup :=
  (List.perm_insertionSort _ _).nodup_iff.mpr (dedupFirst_nodup l)

/-- Unfolding equation for `alookup` on a cons cell. -/
lemma alookup_cons {κ α : Type} [DecidableEq κ] (k k2 : κ) (v : α) (rest : List (κ × α)) :
    alookup k ((k2, v) :: rest) = if k = k2 then some v else alookup k rest := rfl

/-- Looking a present key up in the graph of a function over distinct
keys returns the function value. -/
lemma alookup_graph {κ α : Type} [DecidableEq κ] (f : κ → α) :
    ∀ (ks : List κ) (k : κ), ks.Nodup → k ∈ ks →
      alookup k (ks.map (fun x => (x, f x))) = some (f k) := by
  intro ks
  induction ks with
  | nil => intro k _ hk; exact absurd hk (by simp)
  | cons a as ih =>
      intro k hnd hk
      rw [List.map_cons, alookup_cons]
      by_cases hka : k = a
      · rw [if_pos hka, hka]
      · rw [if_neg hka]
        exact ih k (List.Nodup.of_cons hnd) ((List.mem_cons.mp hk).resolve_left hka)

/-- The aggregated window of a nonempty group is the minimum start and
the maximum end of the group. -/
lemma winAgg_minmax (rs : List ShiftRecord) (hne : rs ≠ []) :
    (rs.map ShiftRecord.start_dt).min? = some (winAgg rs).start_dt ∧
    (rs.map ShiftRecord.end_dt).max? = some (winAgg rs).end_dt := by
  rcases rs with _ | ⟨r, rest⟩
  · exact absurd rfl hne
  · constructor
    · rw [List.map_cons, List.min?_cons', List.foldl_map]
      rfl
    · rw [List.map_cons, List.max?_cons', List.foldl_map]
      rfl

/-- `by_date` with its local bindings inlined. -/
lemma by_date_eq (df : List ShiftRecord) :
    by_date df =
      (sortDedupN (df.map (fun r => r.date))).map (fun d =>
        (d, (dedupFirst ((df.filter (fun r => r.date = d)).map (fun r => r.name))).map
          (fun n =>
            (n, winAgg ((df.filter (fun r => r.date = d)).filter
              (fun r => r.name = n)))))) := rfl

/-- C8: grouping the records by date and then by name, every nonempty
`(date, employee)` group appears in `by_date` with a window whose
start is the minimum of the group's starts and whose end is the
maximum of the group's ends. -/
theorem c8_window_is_group_min_max (df : List ShiftRecord) (d : Nat) (n : String)
    (h : (df.filter (fun r => r.date = d)).filter (fun r => r.name = n) ≠ []) :
    ∃ per w, alookup d (by_date df) = some per ∧ alookup n per = some w ∧
      (((df.filter (fun r => r.date = d)).filter (fun r => r.name = n)).map
          ShiftRecord.start_dt).min? = some w.start_dt ∧
      (((df.filter (fun r => r.date = d)).filter (fun r => r.name = n)).map
          ShiftRecord.end_dt).max? = some w.end_dt := by
  obtain ⟨r, hr⟩ := List.exists_mem_of_ne_nil _ h
  have hrg := List.mem_filter.mp hr
  have hrdf := List.mem_filter.mp hrg.1
  have hrd : r.date = d := of_decide_eq_true hrdf.2
  have hrn : r.name = n := of_decide_eq_true hrg.2
  have hdmem : d ∈ sortDedupN (df.map (fun r => r.date)) :=
    (sortDedupN_mem _ _).mpr (List.mem_map.mpr ⟨r, hrdf.1, hrd⟩)
  have hnmem : n ∈ dedupFirst ((df.filter (fun r => r.date = d)).map (fun r => r.name)) :=
    (dedupFirst_mem _ _).mpr (List.mem_map.mpr ⟨r, hrg.1, hrn⟩)
  have h1 : alookup d (by_date df) =
      some ((dedupFirst ((df.filter (fun r => r.date = d)).map (fun r => r.name))).map
        (fun n2 => (n2, winAgg ((df.filter (fun r => r.date = d)).filter
          (fun r => r.name = n2))))) := by
    rw [by_date_eq]
    exact alookup_graph _ _ d (sortDedupN_nodup _) hdmem
  have h2 : alookup n
      ((dedupFirst ((df.filter (fun r => r.date = d)).map (fun r => r.name))).map
        (fun n2 => (n2, winAgg ((df.filter (fun r => r.date = d)).filter
          (fun r => r.name = n2))))) =
      some (winAgg ((df.filter (fun r => r.date = d)).filter (fun r => r.name = n))) :=
    alookup_graph _ _ n (dedupFirst_nodup _) hnmem
  exact ⟨_, _, h1, h2, (winAgg_minmax _ h).1, (winAgg_minmax _ h).2⟩

/-- C8 witness: two fragment records for the same person and date (a
later, shorter fragment) collapse to the earliest start and latest
end. -/
theorem c8_window_is_group_min_max_witness :
    ∃ per w, alookup 5 (by_date [⟨5, "A", 540, 1020⟩, ⟨5, "A", 700, 730⟩,
        ⟨5, "B", 0, 2000⟩]) = some per ∧
      alookup ("A") per = some w ∧
      ((([⟨5, "A", 540, 1020⟩, ⟨5, "A", 700, 730⟩, ⟨5, "B", 0, 2000⟩].filter
          (fun r => r.date = 5)).filter (fun r => r.name = "A")).map
          ShiftRecord.start_dt).min? = some w.start_dt ∧
      ((([⟨5, "A", 540, 1020⟩, ⟨5, "A", 700, 730⟩, ⟨5, "B", 0, 2000⟩].filter
          (fun r => r.date = 5)).filter (fun r => r.name = "A")).map
          ShiftRecord.end_dt).max? = some w.end_dt :=
  c8_window_is_group_min_max [⟨5, "A", 540, 1020⟩, ⟨5, "A", 700, 730⟩, ⟨5, "B", 0, 2000⟩]
    5 ("A") (by decide)

/-! ## `clean_name` fixpoint machinery (claim C4) -/

set_option maxHeartbeats 1600000 in
/-- Uppercasing is idempotent. -/
lemma upChar_idem (c : Char) : upChar (upChar c) = upChar c := by
  unfold upChar
  split <;> first | rfl | (rename_i heq; split at heq <;> simp_all)

/-- A character of an uppercased string is fixed by uppercasing. -/
lemma upFix_of_mem_map {raw : List Char} {c : Char} (h : c ∈ raw.map upChar) :
    upChar c = c := by
  obtain ⟨a, _, rfl⟩ := List.mem_map.mp h
  exact upChar_idem a

/-- `dropWhile` only keeps characters of its input. -/
lemma dropWhile_subset (p : Char → Bool) (l : List Char) :
    ∀ c ∈ l.dropWhile p, c ∈ l :=
  fun _ hc => (List.dropWhile_sublist _).subset hc

/-- `trimWS` only keeps characters of its input. -/
lemma trimWS_subset (l : List Char) : ∀ c ∈ trimWS l, c ∈ l := by
  intro c hc
  unfold trimWS at hc
  rw [List.mem_reverse] at hc
  have h2 := dropWhile_subset _ _ _ hc
  rw [List.mem_reverse] at h2
  exact dropWhile_subset _ _ _ h2

/-- `dropJunk` only keeps characters of its input. -/
lemma dropJunk_subset (l : List Char) : ∀ c ∈ dropJunk l, c ∈ l :=
  fun _ hc => dropWhile_subset _ _ _ hc

/-- `dropCode` only keeps characters of its input. -/
lemma dropCode_subset (l : List Char) : ∀ c ∈ dropCode l, c ∈ l := by
  intro c hc
  unfold dropCode at hc
  split at hc
  · exact hc
  · split at hc
    · rename_i r heq
      have h1 : c ∈ '-' :: r := List.mem_cons_of_mem _ (dropWhile_subset _ _ _ hc)
      rw [← heq] at h1
      exact dropWhile_subset _ _ _ (dropWhile_subset _ _ _ h1)
    · exact hc

/-- `dropWhile` is the identity when the head does not satisfy the
predicate. -/
lemma dropWhile_noop (p : Char → Bool) (l : List Char)
    (h : ∀ c, l.head? = some c → p c = false) : l.dropWhile p = l := by
  cases l with
  | nil => rfl
  | cons a l2 =>
      rw [List.dropWhile_cons, h a rfl]
      simp

/-- `trimWS` is the identity when neither end is whitespace. -/
lemma trimWS_noop (l : List Char)
    (hh : ∀ c, l.head? = some c → isWSC c = false)
    (hl : ∀ c, l.getLast? = some c → isWSC c = false) : trimWS l = l := by
  unfold trimWS
  rw [dropWhile_noop _ _ hh,
    dropWhile_noop _ _ (fun c hc => hl c (by rwa [List.head?_reverse] at hc)),
    List.reverse_reverse]

/-- `dropJunk` is the identity when the head is a kept character. -/
lemma dropJunk_noop (l : List Char)
    (hh : ∀ c, l.head? = some c → isKeepC c = true) : dropJunk l = l :=
  dropWhile_noop _ _ (fun c hc => by rw [hh c hc]; rfl)

/-- Unfolding equation for `wordsRaw` on a cons cell. -/
lemma wordsRaw_cons (c : Char) (cs : List Char) :
    wordsRaw (c :: cs) =
      (if isWSC c then [] :: wordsRaw cs
       else
         match wordsRaw cs with
         | [] => [[c]]
         | w :: ws => (c :: w) :: ws) := rfl

/-- Characters of the chunks produced by `wordsRaw` come from the
input and are not whitespace. -/
lemma wordsRaw_chars :
    ∀ (cs w : List Char), w ∈ wordsRaw cs → ∀ c ∈ w, c ∈ cs ∧ isWSC c = false := by
  intro cs
  induction cs with
  | nil => intro w hw; exact absurd hw (by simp [wordsRaw])
  | cons a cs2 ih =>
      intro w hw c hc
      rw [wordsRaw_cons] at hw
      by_cases ha : isWSC a
      · rw [if_pos ha] at hw
        rcases List.mem_cons.mp hw with rfl | hw
        · exact absurd hc (by simp)
        · obtain ⟨h1, h2⟩ := ih w hw c hc
          exact ⟨List.mem_cons_of_mem _ h1, h2⟩
      · rw [if_neg ha] at hw
        rcases hrw : wordsRaw cs2 with _ | ⟨w0, ws0⟩ <;> rw [hrw] at hw
        · rcases List.mem_singleton.mp hw with rfl
          rcases List.mem_singleton.mp hc with rfl
          exact ⟨List.mem_cons_self _ _, Bool.eq_false_iff.mpr ha⟩
        · rcases List.mem_cons.mp hw with rfl | hw
          · rcases List.mem_cons.mp hc with rfl | hc
            · exact ⟨List.mem_cons_self _ _, Bool.eq_false_iff.mpr ha⟩
            · obtain ⟨h1, h2⟩ := ih w0 (hrw ▸ List.mem_cons_self w0 ws0) c hc
              exact ⟨List.mem_cons_of_mem _ h1, h2⟩
          · obtain ⟨h1, h2⟩ := ih w (hrw ▸ List.mem_cons_of_mem w0 hw) c hc
            exact ⟨List.mem_cons_of_mem _ h1, h2⟩

/-- The words of a string are nonempty, whitespace-free, and use only
characters of the string. -/
lemma wordsL_word_props (cs : List Char) :
    ∀ w ∈ wordsL cs, w ≠ [] ∧ ∀ c ∈ w, c ∈ cs ∧ isWSC c = false := by
  intro w hw
  have h2 := List.mem_filter.mp hw
  refine ⟨by simpa using h2.2, wordsRaw_chars cs w h2.1⟩

/-- `wordsRaw` of one nonempty whitespace-free word is that word
alone. -/
lemma wordsRaw_single :
    ∀ (t : List Char), t ≠ [] → (∀ c ∈ t, isWSC c = false) → wordsRaw t = [t] := by
  intro t
  induction t with
  | nil => intro h; exact absurd rfl h
  | cons c cs ih =>
      intro _ hw
      rw [wordsRaw_cons, if_neg (by rw [hw c (List.mem_cons_self c cs)]; simp)]
      cases cs with
      | nil => rfl
      | cons c2 cs2 =>
          rw [ih (by simp) (fun x hx => hw x (List.mem_cons_of_mem _ hx))]

/-- `wordsRaw` of two nonempty whitespace-free words joined by one
space is the two words. -/
lemma wordsRaw_pair :
    ∀ (p q : List Char), p ≠ [] → q ≠ [] → (∀ c ∈ p, isWSC c = false) →
      (∀ c ∈ q, isWSC c = false) → wordsRaw (p ++ ' ' :: q) = [p, q] := by
  intro p
  induction p with
  | nil => intro q h; exact absurd rfl h
  | cons c cs ih =>
      intro q _ hq hwp hwq
      rw [List.cons_append, wordsRaw_cons,
        if_neg (by rw [hwp c (List.mem_cons_self c cs)]; simp)]
      cases cs with
      | nil =>
          rw [List.nil_append]
          rw [show wordsRaw (' ' :: q) = [] :: wordsRaw q from
            by rw [wordsRaw_cons, if_pos (by unfold isWSC; simp)]]
          rw [wordsRaw_single q hq hwq]
      | cons c2 cs2 =>
          rw [ih q (by simp) hq (fun x hx => hwp x (List.mem_cons_of_mem _ hx)) hwq]

/-- `wordsL` of one nonempty whitespace-free word. -/
lemma wordsL_single (t : List Char) (ht : t ≠ []) (hw : ∀ c ∈ t, isWSC c = false) :
    wordsL t = [t] := by
  unfold wordsL
  rw [wordsRaw_single t ht hw]
  simp [ht]

/-- `wordsL` of two nonempty whitespace-free words joined by one
space. -/
lemma wordsL_pair (p q : List Char) (hp : p ≠ []) (hq : q ≠ [])
    (hwp : ∀ c ∈ p, isWSC c = false) (hwq : ∀ c ∈ q, isWSC c = false) :
    wordsL (p ++ ' ' :: q) = [p, q] := by
  unfold wordsL
  rw [wordsRaw_pair p q hp hq hwp hwq]
  simp [hp, hq]

/-- `cleanCore` of a single word is that word. -/
lemma cleanCore_single (t : List Char) : cleanCore [t] = t := rfl

/-- `cleanCore` of a word followed by an initial keeps both. -/
lemma cleanCore_pair (p q : List Char) (hq : isInitialTok q = true) :
    cleanCore [p, q] = p ++ ' ' :: q := by
  simp [cleanCore, hq]

/-- `cleanCore` when the reversed word list is empty. -/
lemma cleanCore_rev_nil (parts : List (List Char)) (h : parts.reverse = []) :
    cleanCore parts = [] := by
  unfold cleanCore
  rw [h]

/-- `cleanCore` when the reversed word list is a singleton. -/
lemma cleanCore_rev_single (parts : List (List Char)) (t : List Char)
    (h : parts.reverse = [t]) : cleanCore parts = t := by
  unfold cleanCore
  rw [h]

/-- `cleanCore` when the reversed word list has at least two words. -/
lemma cleanCore_rev_pair (parts : List (List Char)) (p q : List Char)
    (rest : List (List Char)) (h : parts.reverse = q :: p :: rest) :
    cleanCore parts =
      (if isInitialTok q then p ++ ' ' :: q
       else if rest ≠ [] && isInitialTok q && isInitialTok p then
         rest.headD [] ++ ' ' :: (p ++ ' ' :: q)
       else q) := by
  unfold cleanCore
  rw [h]

/-- The shape of every `cleanCore` output: empty, one of the words, or
a word and a trailing initial joined by one space. -/
lemma cleanCore_shape (parts : List (List Char)) :
    cleanCore parts = [] ∨ (∃ t ∈ parts, cleanCore parts = t) ∨
    (∃ p q, p ∈ parts ∧ q ∈ parts ∧ isInitialTok q = true ∧
      cleanCore parts = p ++ ' ' :: q) := by
  rcases hrev : parts.reverse with _ | ⟨q, rest1⟩
  · exact Or.inl (cleanCore_rev_nil parts hrev)
  · rcases rest1 with _ | ⟨p, rest⟩
    · refine Or.inr (Or.inl ⟨q, ?_, cleanCore_rev_single parts q hrev⟩)
      rw [← List.mem_reverse, hrev]
      exact List.mem_singleton.mpr rfl
    · have hqmem : q ∈ parts := by
        rw [← List.mem_reverse, hrev]
        exact List.mem_cons_self _ _
      have hpmem : p ∈ parts := by
        rw [← List.mem_reverse, hrev]
        exact List.mem_cons_of_mem _ (List.mem_cons_self _ _)
      have heq := cleanCore_rev_pair parts p q rest hrev
      by_cases hq : isInitialTok q = true
      · rw [heq, if_pos hq]
        exact Or.inr (Or.inr ⟨p, q, hpmem, hqmem, hq, rfl⟩)
      · rw [heq, if_neg hq, if_neg (by simp [Bool.eq_false_iff.mpr hq])]
        exact Or.inr (Or.inl ⟨q, hqmem, rfl⟩)

/-- Mapping `upChar` over already-fixed characters changes nothing. -/
lemma map_upChar_id (l : List Char) (h : ∀ c ∈ l, upChar c = c) :
    l.map upChar = l := by
  induction l with
  | nil => rfl
  | cons a l2 ih =>
      rw [List.map_cons, h a (List.mem_cons_self a l2),
        ih (fun c hc => h c (List.mem_cons_of_mem _ hc))]

/-- `clean_name` fixes a single good word whose head survives the
junk removal and which carries no leading numeric code. -/
lemma cleanNameL_fix_single (t : List Char) (hgw : GoodWord t)
    (hhead : ∀ c, t.head? = some c → isKeepC c = true)
    (hcode : dropCode t = t) : cleanNameL t = t := by
  obtain ⟨hne, hch⟩ := hgw
  unfold cleanNameL
  rw [map_upChar_id t (fun c hc => (hch c hc).1),
    trimWS_noop t
      (fun c hc => (hch c (List.mem_of_mem_head? (Option.mem_def.mpr hc))).2)
      (fun c hc => (hch c (List.mem_of_mem_getLast? (Option.mem_def.mpr hc))).2),
    dropJunk_noop t hhead, hcode,
    wordsL_single t hne (fun c hc => (hch c hc).2), cleanCore_single]

/-- `clean_name` fixes a good word followed by a single-initial good
word, under the same head and code conditions. -/
lemma cleanNameL_fix_pair (p q : List Char) (hgp : GoodWord p) (hgq : GoodWord q)
    (hqinit : isInitialTok q = true)
    (hhead : ∀ c, (p ++ ' ' :: q).head? = some c → isKeepC c = true)
    (hcode : dropCode (p ++ ' ' :: q) = p ++ ' ' :: q) :
    cleanNameL (p ++ ' ' :: q) = p ++ ' ' :: q := by
  obtain ⟨hpne, hpch⟩ := hgp
  obtain ⟨hqne, hqch⟩ := hgq
  have hup : ∀ c ∈ p ++ ' ' :: q, upChar c = c := by
    intro c hc
    rcases List.mem_append.mp hc with hc | hc
    · exact (hpch c hc).1
    · rcases List.mem_cons.mp hc with rfl | hc
      · decide
      · exact (hqch c hc).1
  have hheadeq : (p ++ ' ' :: q).head? = p.head? := by
    rcases p with _ | ⟨a, p2⟩
    · exact absurd rfl hpne
    · rfl
  have hlast : (p ++ ' ' :: q).getLast? = q.getLast? := by
    rcases q with _ | ⟨b, q2⟩
    · exact absurd rfl hqne
    · rw [List.getLast?_append, List.getLast?_cons_cons]
      rcases hq2 : (b :: q2).getLast? with _ | x
      · rw [List.getLast?_eq_none_iff] at hq2
        exact absurd hq2 (by simp)
      · rfl
  unfold cleanNameL
  rw [map_upChar_id _ hup,
    trimWS_noop _
      (fun c hc =>
        (hpch c (List.mem_of_mem_head? (Option.mem_def.mpr (by rwa [hheadeq] at hc)))).2)
      (fun c hc =>
        (hqch c (List.mem_of_mem_getLast? (Option.mem_def.mpr (by rwa [hlast] at hc)))).2),
    dropJunk_noop _ hhead, hcode,
    wordsL_pair p q hpne hqne (fun c hc => (hpch c hc).2) (fun c hc => (hqch c hc).2),
    cleanCore_pair p q hqinit]

/-- `clean_name` is a fixpoint on its own output whenever the output
starts with a kept character (`A`-`Z`/`0`-`9`) and carries no leading
numeric code with a dash. -/
lemma cleanNameL_fix (raw : List Char)
    (hne : cleanNameL raw ≠ [])
    (hhead : ∀ c, (cleanNameL raw).head? = some c → isKeepC c = true)
    (hcode : dropCode (cleanNameL raw) = cleanNameL raw) :
    cleanNameL (cleanNameL raw) = cleanNameL raw := by
  have hdef : cleanNameL raw =
      cleanCore (wordsL (dropCode (dropJunk (trimWS (raw.map upChar))))) := rfl
  have hgood : ∀ w ∈ wordsL (dropCode (dropJunk (trimWS (raw.map upChar)))), GoodWord w := by
    intro w hw
    obtain ⟨hwne, hwch⟩ :=
      wordsL_word_props (dropCode (dropJunk (trimWS (raw.map upChar)))) w hw
    refine ⟨hwne, fun c hc => ?_⟩
    obtain ⟨hmem, hws⟩ := hwch c hc
    have hmem2 : c ∈ raw.map upChar :=
      trimWS_subset _ c (dropJunk_subset _ c (dropCode_subset _ c hmem))
    exact ⟨upFix_of_mem_map hmem2, hws⟩
  rcases cleanCore_shape (wordsL (dropCode (dropJunk (trimWS (raw.map upChar))))) with
    h0 | ⟨t, ht, hteq⟩ | ⟨p, q, hpmem, hqmem, hqinit, heq⟩
  · rw [hdef] at hne
    exact absurd h0 hne
  · rw [hdef, hteq] at hhead hcode ⊢
    exact cleanNameL_fix_single t (hgood t ht) hhead hcode
  · rw [hdef, heq] at hhead hcode ⊢
    exact cleanNameL_fix_pair p q (hgood p hpmem) (hgood q hqmem) hqinit hhead hcode

/-- C4 counterexample: the extractor emits the name `+SMITH G` (the
kept tokens may carry punctuation from the middle of the raw field),
and re-normalizing that name strips the `+`, so the claimed fixpoint
property fails and a window lookup under the re-normalized name would
miss. -/
theorem c4_fixpoint_fails_on_emitted_name :
    parse_pdf ["Tuesday, March 3, 2026", "JOHN +SMITH G 9:00AM-5:00PM"] =
      .ok [⟨20260303, "+SMITH G", 540, 1020⟩] ∧
    clean_name ("+SMITH G") ≠ "+SMITH G" :=
  ⟨rfl, by decide⟩

/-- C4 (amended): query-side normalization fixes every extractor-emitted
name that starts with a kept character (a capital letter or digit) and
does not start with a numeric code followed by a dash; names whose
retained tokens begin with other punctuation (or a code-like prefix)
are re-stripped and the fixpoint fails for them. -/
theorem c4_normalization_fixpoint_amended (lines : List String)
    (recs : List ShiftRecord) (h : parse_pdf lines = .ok recs)
    (r : ShiftRecord) (hr : r ∈ recs)
    (hhead : ∀ c, r.name.toList.head? = some c → isKeepC c = true)
    (hcode : dropCode r.name.toList = r.name.toList) :
    clean_name r.name = r.name := by
  obtain ⟨⟨raw, hraw⟩, hne, _, _⟩ := parsePdfGo_records lines none recs h r hr
  have hlist : r.name.toList = cleanNameL raw := by
    rw [hraw]
    rfl
  have hne2 : cleanNameL raw ≠ [] := by
    intro h0
    apply hne
    rw [hraw, h0]
  rw [hlist] at hhead hcode
  have hfix := cleanNameL_fix raw hne2 hhead hcode
  show String.mk (cleanNameL r.name.toList) = r.name
  rw [hlist, hfix]
  exact hraw.symm

/-- C4 amended-claim witness: the name extracted from a concrete
document is fixed by `clean_name`. -/
theorem c4_normalization_fixpoint_amended_witness : clean_name ("ANN K") = "ANN K" :=
  c4_normalization_fixpoint_amended ["Tuesday, March 3, 2026", "ANN K 9:00AM-5:00PM"]
    [⟨20260303, "ANN K", 540, 1020⟩] rfl ⟨20260303, "ANN K", 540, 1020⟩
    (List.mem_singleton.mpr rfl)
    (fun c hc => by
      rw [show ("ANN K" : String).toList.head? = some 'A' from rfl] at hc
      injection hc with hc2
      rw [← hc2]
      rfl)
    rfl

/-! ## Claim C1 and C3 evidence, C2 -/

/-- C1: the specification claims line-level anomalies (a shift token
whose clock fields are out of 12-hour range, or a date-shaped line
with an unrecognized month) discard only the offending line and never
abort the whole document.  The code has no exception handler, so
`strptime` raises and the whole parse aborts: a document with a bad
line yields an error even though a later line is fine, while the same
document without the bad line parses normally. -/
theorem c1_line_anomaly_aborts_parse :
    parse_pdf ["Tuesday, March 3, 2026", "BOB G 0:00AM-5:00PM", "ANN K 9:00AM-5:00PM"] =
      .error () ∧
    parse_pdf ["Monday, Florp 3, 2026", "ANN K 9:00AM-5:00PM"] = .error () ∧
    parse_pdf ["Tuesday, March 3, 2026", "ANN K 9:00AM-5:00PM"] =
      .ok [⟨20260303, "ANN K", 540, 1020⟩] :=
  ⟨rfl, rfl, rfl⟩

/-- C3: the claim (and the source's own comment) says a field ending
in two single-letter tokens retains the last 3 tokens, so `MARY A B`
stays `MARY A B`; the single-initial branch fires first, so the code
actually returns `A B`.  The claimed single-initial behaviour
(`024 - PAINT PAUL G` to `PAUL G`) is shown alongside. -/
theorem c3_two_initials_keeps_two_tokens :
    clean_name ("MARY A B") = "A B" ∧
    clean_name ("024 - PAINT PAUL G") = "PAUL G" ∧
    "A B" ≠ "MARY A B" :=
  ⟨rfl, rfl, by decide⟩

/-- C2 counterexample: with three distinct names and quorum 1 (outside
the claimed validated range `[2, selection size]`) the engine emits a
row instead of returning the claimed empty result. -/
theorem c2_quorum_one_emits_a_row :
    (overlap_days [(0, [("ALICE", ⟨540, 1020⟩)])] ["ALICE", "BOB", "CARL"] 1).length = 1 :=
  rfl

/-- C2 (amended): fewer than 3 distinct normalized names, or a quorum
larger than the number of distinct selected names, yields the empty
result; quorum values below 2 are not validated. -/
theorem c2_validation_yields_empty (bd : List (Nat × Per)) (names : List String)
    (require_k : Nat)
    (h : (uniqNames names).length < 3 ∨ (uniqNames names).length < require_k) :
    overlap_days bd names require_k = [] := by
  unfold overlap_days
  by_cases h3 : (uniqNames names).length < 3
  · simp [h3]
  · rcases h with h | h
    · exact absurd h h3
    · rw [if_neg h3]
      rw [List.filterMap_eq_nil_iff]
      intro d _
      cases halk : alookup d bd with
      | none => rfl
      | some per =>
          show dateRow d per (uniqNames names) require_k = none
          unfold dateRow
          rw [if_pos]
          exact Nat.lt_of_le_of_lt (List.length_filter_le _ _) h

/-- C2 amended-claim witness: quorum 7 with 3 distinct names yields
the empty result. -/
theorem c2_validation_yields_empty_witness :
    overlap_days [(0, [("ALICE", ⟨540, 1020⟩)])] ["ALICE", "BOB", "CARL"] 7 = [] :=
  c2_validation_yields_empty _ _ _ (Or.inr (by decide))

/-- C9 counterexample: a 50-minute three-way overlap is reported as
0.83 hours (`round(x, 2)`), while the claimed exact value of elapsed
seconds over 3600 is 5/6 hours. -/
theorem c9_duration_not_exact :
    (overlap_days [(0, [("A", ⟨0, 50⟩), ("B", ⟨0, 50⟩), ("C", ⟨0, 50⟩)])]
        ["A", "B", "C"] 3).map OverlapRow.durationHrs = [83 / 100] ∧
    ((83 : ℚ) / 100) ≠ ((50 : ℚ) * 60 / 3600) := by
  constructor
  · have h : (overlap_days [(0, [("A", ⟨0, 50⟩), ("B", ⟨0, 50⟩), ("C", ⟨0, 50⟩)])]
        ["A", "B", "C"] 3).map OverlapRow.durationHrs =
        [round2 ((((50 : Nat) : ℚ) - ((0 : Nat) : ℚ)) * 60 / 3600)] := rfl
    rw [h, round2, round_eq]
    norm_num
  · norm_num

end ShiftOverlap
